import Mathlib

/-!
Verification development for the ghpr-analyzer repository.

Go strings are modelled as `List Char` (`GoStr`); byte-level UTF-8 encoding is
not modelled, so `len` on a Go string is modelled by the character count, which
coincides for ASCII input.  Helper functions below mirror the parts of Go's
`strings` and `path/filepath` standard-library packages that the source uses.
-/

abbrev GoStr := List Char

/-- Shorthand turning a Lean string literal into the `List Char` model. -/
def gs (s : String) : GoStr := s.toList

/-- Models strings.HasPrefix. -/
def strHasPre : GoStr → GoStr → Bool
  | [], _ => true
  | _ :: _, [] => false
  | p :: ps, c :: cs => p == c && strHasPre ps cs

/-- Models strings.HasSuffix (length check plus tail equality). -/
def strHasSuf (suf s : GoStr) : Bool :=
  strHasPre suf.reverse s.reverse

/-- Models strings.TrimPrefix. -/
def strTrimPre (s pre : GoStr) : GoStr :=
  if strHasPre pre s then s.drop pre.length else s

/-- Models strings.TrimSuffix. -/
def strTrimSuf (s suf : GoStr) : GoStr :=
  if strHasSuf suf s then s.take (s.length - suf.length) else s

/-- Models strings.Index: position of the first occurrence of `sub` in `s`,
`none` for Go's `-1`. -/
def strIndex : GoStr → GoStr → Option Nat
  | s, sub =>
    if strHasPre sub s then some 0
    else
      match s with
      | [] => none
      | _ :: t => (strIndex t sub).map (· + 1)

/-- Models strings.Contains. -/
def strContains (s sub : GoStr) : Bool :=
  (strIndex s sub).isSome

/-- Fuel-driven worker for `strSplit`; each step consumes at least one
character of `s` because the separator is nonempty in every use site. -/
def strSplitAux (sep : GoStr) : Nat → GoStr → List GoStr
  | 0, s => [s]
  | fuel + 1, s =>
    match strIndex s sep with
    | none => [s]
    | some i => s.take i :: strSplitAux sep fuel (s.drop (i + sep.length))

/-- Models strings.Split for a nonempty separator (the only form the source
uses: separators `"*"`, `"**"` and `"\n"`); an empty separator splits into
single characters as in Go. -/
def strSplit (s sep : GoStr) : List GoStr :=
  if sep = [] then s.map (fun c => [c])
  else strSplitAux sep (s.length + 1) s

/-- Models strings.ReplaceAll via split-and-join, which agrees with Go for a
nonempty pattern. -/
def strReplaceAll (s old new : GoStr) : GoStr :=
  List.intercalate new (strSplit s old)

/-- ASCII whitespace per Go's unicode.IsSpace as used by strings.Fields. -/
def goIsSpace (c : Char) : Bool :=
  c == ' ' || c == '\t' || c == '\n' || c == '\x0B' || c == '\x0C' || c == '\r'

/-- Worker for `strFields`, accumulating the current word in reverse. -/
def strFieldsAux : GoStr → GoStr → List GoStr
  | [], acc => if acc = [] then [] else [acc.reverse]
  | c :: t, acc =>
    if goIsSpace c then
      if acc = [] then strFieldsAux t []
      else acc.reverse :: strFieldsAux t []
    else strFieldsAux t (c :: acc)

/-- Models strings.Fields: whitespace-separated words. -/
def strFields (s : GoStr) : List GoStr := strFieldsAux s []

/-- Models strings.TrimSpace (ASCII whitespace). -/
def strTrimSpace (s : GoStr) : GoStr :=
  ((s.dropWhile goIsSpace).reverse.dropWhile goIsSpace).reverse

/-- Element processing of Go's path cleaning: drops empty and `.` elements,
resolves `..` against the accumulator (kept in reverse order). -/
def cleanElems (rooted : Bool) : List GoStr → List GoStr → List GoStr
  | [], acc => acc.reverse
  | e :: rest, acc =>
    if e = [] ∨ e = ['.'] then cleanElems rooted rest acc
    else if e = ['.', '.'] then
      if rooted then
        match acc with
        | [] => cleanElems rooted rest []
        | _ :: acc1 => cleanElems rooted rest acc1
      else
        match acc with
        | [] => cleanElems rooted rest [['.', '.']]
        | a :: acc1 =>
          if a = ['.', '.'] then cleanElems rooted rest (['.', '.'] :: acc)
          else cleanElems rooted rest acc1
    else cleanElems rooted rest (e :: acc)

/-- Models filepath.Clean with `/` as separator (the Unix build the source
targets): lexical simplification of the path. -/
def goClean (s : GoStr) : GoStr :=
  if s = [] then ['.']
  else
    let rooted := strHasPre ['/'] s
    let elems := cleanElems rooted (strSplit s ['/']) []
    let joined := List.intercalate ['/'] elems
    if rooted then '/' :: joined
    else if joined = [] then ['.'] else joined

/-!
Embedding of internal/fetcher CODEOWNERS parsing and matching
(source: the fetcher package, `parseCODEOWNERS`, `matchesPattern`,
`matchWildcard`, `matchSingleStar`, `matchDoubleStar`, `matchRegexLike`,
`FindOwners`).
-/

/-- CODEOWNERSRule from the fetcher package. -/
structure CODEOWNERSRule where
  pattern : GoStr
  owners : List GoStr
  lineNum : Nat
deriving DecidableEq, Repr

/-- CODEOWNERSFile from the fetcher package. -/
structure CODEOWNERSFile where
  rules : List CODEOWNERSRule
  path : GoStr
deriving DecidableEq, Repr

/-- Per-line step of `parseCODEOWNERS`: trims the line, skips blanks,
comments and lines with fewer than two fields, normalizes the pattern to
carry a leading slash. -/
def parseLine (lineNum : Nat) (line : GoStr) : Option CODEOWNERSRule :=
  let line := strTrimSpace line
  if line = [] ∨ strHasPre ['#'] line then none
  else
    match strFields line with
    | [] => none
    | [_] => none
    | pat :: owners =>
      let pat := if strHasPre ['/'] pat then pat else '/' :: pat
      some ⟨pat, owners, lineNum⟩

/-- Worker enumerating lines with 1-based line numbers. -/
def parseLinesAux (lineNum : Nat) : List GoStr → List CODEOWNERSRule
  | [] => []
  | l :: rest =>
    match parseLine lineNum l with
    | some r => r :: parseLinesAux (lineNum + 1) rest
    | none => parseLinesAux (lineNum + 1) rest

/-- parseCODEOWNERS from the fetcher package (never fails in the source, so
the error return is omitted). -/
def parseCODEOWNERS (content : GoStr) (path : GoStr) : CODEOWNERSFile :=
  ⟨parseLinesAux 1 (strSplit content ['\n']), path⟩

/-- Token of the regular expression `matchSingleStar` builds: a literal run
(the source quotes it with regexp.QuoteMeta, so it matches itself) or the
`[^/]*` piece inserted between split parts. -/
inductive STok where
  | lit (cs : GoStr)
  | star
deriving DecidableEq, Repr

/-- The token-building loop of `matchSingleStar`: non-empty parts become
literal tokens and `[^/]*` is inserted after every part but the last. -/
def buildSingleStarToks : List GoStr → List STok
  | [] => []
  | [p] => if p = [] then [] else [STok.lit p]
  | p :: rest =>
    (if p = [] then [STok.star] else [STok.lit p, STok.star]) ++
      buildSingleStarToks rest

/-- Worker for `stokMatch`; every recursive call shortens the token list or
the string, so a fuel of their combined length suffices and keeps the
definition kernel-computable. -/
def stokMatchAux : Nat → List STok → GoStr → Bool
  | 0, _, _ => false
  | _ + 1, [], s => s.isEmpty
  | fuel + 1, STok.lit p :: rest, s =>
    strHasPre p s && stokMatchAux fuel rest (s.drop p.length)
  | fuel + 1, STok.star :: rest, s =>
    stokMatchAux fuel rest s ||
      match s with
      | [] => false
      | c :: s1 => !(c == '/') && stokMatchAux fuel (STok.star :: rest) s1

/-- Matching of the anchored regular expression `^ tok0 tok1 ... $` built by
`matchSingleStar`, where `star` matches any run of characters other than
`/`. -/
def stokMatch (toks : List STok) (s : GoStr) : Bool :=
  stokMatchAux (toks.length + s.length + 1) toks s

/-- matchSingleStar from the fetcher package: splits the pattern on `*` and
matches the induced `^ ... ([^/]*) ... $` regular expression. -/
def matchSingleStar (pattern filePath : GoStr) : Bool :=
  let parts := strSplit pattern ['*']
  if parts.length < 2 then pattern == filePath
  else stokMatch (buildSingleStarToks parts) filePath

/-- Atom of the fallback regular expressions in `matchRegexLike`: `.`
(any character) or a literal character. -/
inductive RAtom where
  | dot
  | lit (c : Char)
deriving DecidableEq, Repr

/-- Single-character test for a regular-expression atom. -/
def ratomMatch : RAtom → Char → Bool
  | RAtom.dot, _ => true
  | RAtom.lit c, c1 => c == c1

/-- A regular-expression metacharacter other than `*` and `.`; such
characters never reach `matchRegexLike` from CODEOWNERS-shaped patterns and
are modelled as a compile failure. -/
def regexMeta (c : Char) : Bool :=
  c == '(' || c == ')' || c == '[' || c == ']' ||
    c == '\x7b' || c == '\x7d' || c == '|' || c == '+' || c == '?' ||
    c == '\\' || c == '^' || c == '$'

/-- The atom a single pattern character denotes. -/
def regexAtom (c : Char) : RAtom :=
  if c == '.' then RAtom.dot else RAtom.lit c

/-- Parses the regular expressions reachable in `matchRegexLike` (patterns
with several `**` occurrences replaced by `.*`): literal characters, `.`,
and a postfix `*` quantifier.  Any other metacharacter, or a dangling
quantifier, yields `none`, modelling a Go regexp compile error (MatchString
then reports no match). -/
def parseRegexToks : GoStr → Option (List (RAtom × Bool))
  | [] => some []
  | [c] =>
    if c == '*' || regexMeta c then none else some [(regexAtom c, false)]
  | c :: c2 :: rest =>
    if c == '*' || regexMeta c then none
    else if c2 == '*' then (parseRegexToks rest).map ((regexAtom c, true) :: ·)
    else (parseRegexToks (c2 :: rest)).map ((regexAtom c, false) :: ·)

/-- Worker for `reMatch`; fuelled for the same reason as `stokMatchAux`. -/
def reMatchAux : Nat → List (RAtom × Bool) → GoStr → Bool
  | 0, _, _ => false
  | _ + 1, [], s => s.isEmpty
  | fuel + 1, (a, false) :: rest, s =>
    match s with
    | [] => false
    | c :: s1 => ratomMatch a c && reMatchAux fuel rest s1
  | fuel + 1, (a, true) :: rest, s =>
    reMatchAux fuel rest s ||
      match s with
      | [] => false
      | c :: s1 => ratomMatch a c && reMatchAux fuel ((a, true) :: rest) s1

/-- Matching of the anchored `^ ... $` regular expression against the whole
string; a `true` flag is the `*` quantifier. -/
def reMatch (toks : List (RAtom × Bool)) (s : GoStr) : Bool :=
  reMatchAux (toks.length + s.length + 1) toks s

/-- matchRegexLike from the fetcher package: anchored regular-expression
matching; a failed compile yields `false` as in the source (`err == nil &&
matched`). -/
def matchRegexLike (pattern filePath : GoStr) : Bool :=
  match parseRegexToks pattern with
  | none => false
  | some toks => reMatch toks filePath

/-- matchDoubleStar from the fetcher package. -/
def matchDoubleStar (pattern filePath : GoStr) : Bool :=
  let parts := strSplit pattern ['*', '*']
  match parts with
  | [p0, p1] =>
    let pre := strTrimSuf p0 ['/']
    let suf := strTrimPre p1 ['/']
    if pre = [] then strHasSuf suf filePath || suf = []
    else if suf = [] then strHasPre pre filePath || pre = []
    else
      match strIndex filePath pre with
      | none => false
      | some i => strContains (filePath.drop (i + pre.length)) suf
  | _ => matchRegexLike (strReplaceAll pattern ['*', '*'] ['.', '*']) filePath

/-- matchWildcard from the fetcher package. -/
def matchWildcard (pattern filePath : GoStr) : Bool :=
  if strContains pattern ['*', '*'] then matchDoubleStar pattern filePath
  else matchSingleStar pattern filePath

/-- matchesPattern from the fetcher package: cleans both strings, strips
leading slashes and tries exact, directory, wildcard and prefix-directory
matches in the source's order. -/
def matchesPattern (pattern filePath : GoStr) : Bool :=
  let pattern := goClean pattern
  let filePath := goClean filePath
  let pattern := if strHasPre ['/'] pattern then pattern.drop 1 else pattern
  let filePath := if strHasPre ['/'] filePath then filePath.drop 1 else filePath
  if pattern == filePath then true
  else if strHasSuf ['/'] pattern then
    let pattern := strTrimSuf pattern ['/']
    strHasPre (pattern ++ ['/']) filePath || filePath == pattern
  else if strContains pattern ['*'] then matchWildcard pattern filePath
  else strHasPre (pattern ++ ['/']) filePath || filePath == pattern

/-- The per-match record `FindOwners` accumulates: owners plus the
specificity (the length of the stored, normalized pattern). -/
structure OwnerMatch where
  owners : List GoStr
  specificity : Nat
deriving DecidableEq, Repr

/-- Path normalization at the top of `FindOwners`: ensure a leading slash,
then clean. -/
def normalizePath (filePath : GoStr) : GoStr :=
  goClean (if strHasPre ['/'] filePath then filePath else '/' :: filePath)

/-- Inner loop of the specificity sort in `FindOwners` for a fixed outer
index: scans the remainder, swapping whenever a strictly larger specificity
appears; returns the final value of the outer slot and the remainder's
final contents. -/
def sortInner (cur : OwnerMatch) : List OwnerMatch → OwnerMatch × List OwnerMatch
  | [] => (cur, [])
  | x :: xs =>
    if cur.specificity < x.specificity then
      ((sortInner x xs).1, cur :: (sortInner x xs).2)
    else
      ((sortInner cur xs).1, x :: (sortInner cur xs).2)

/-- Outer loop of the specificity sort; the fuel equals the list length, the
number of outer iterations the source performs. -/
def sortMatchesAux : Nat → List OwnerMatch → List OwnerMatch
  | 0, ms => ms
  | _ + 1, [] => []
  | fuel + 1, m :: ms =>
    let (best, rest) := sortInner m ms
    best :: sortMatchesAux fuel rest

/-- The full in-place sort of `FindOwners` (descending specificity, strict
comparisons so equal specificities keep their order). -/
def sortMatches (ms : List OwnerMatch) : List OwnerMatch :=
  sortMatchesAux ms.length ms

/-- FindOwners from the fetcher package: collect matching rules, sort by
specificity, return the owners of the front match (empty when nothing
matches or the file has no rules; the nil-file guard of the pointer-based
source is the empty-rules case here). -/
def findOwners (file : CODEOWNERSFile) (filePath : GoStr) : List GoStr :=
  if file.rules.isEmpty then []
  else
    let fp := normalizePath filePath
    let ms := file.rules.filterMap fun r =>
      if matchesPattern r.pattern fp then some ⟨r.owners, r.pattern.length⟩
      else none
    match sortMatches ms with
    | [] => []
    | m :: _ => m.owners

/-- The rules of `file` whose pattern matches the normalized `filePath`,
in declaration order — the candidate set the claim about `FindOwners`
speaks of. -/
def matchingRules (file : CODEOWNERSFile) (filePath : GoStr) : List CODEOWNERSRule :=
  file.rules.filter fun r => matchesPattern r.pattern (normalizePath filePath)

/-- The per-rule match record `FindOwners` builds for a matching rule. -/
def toMatch (r : CODEOWNERSRule) : OwnerMatch :=
  ⟨r.owners, r.pattern.length⟩

/-- The comparison step of the specificity sort: keep the current record
unless the candidate is strictly more specific (so the earliest record of a
given specificity survives). -/
def pickMoreSpecific (b x : OwnerMatch) : OwnerMatch :=
  if b.specificity < x.specificity then x else b

/-!
Embedding of internal/cache: `CacheEntry.IsExpired`, the SQLite backend's
get operations and the JSON backend's `getJSON`.  Instants and durations
are modelled as integers (Go nanosecond counts); `time.Since(ts)` at read
time `now` is `now - ts`.  Database rows and files are modelled as
association lists; JSON (un)marshalling of the payload is the identity.
-/

/-- Error outcome of a cache get; the source distinguishes the two error
strings but every caller only checks `err == nil`. -/
inductive CacheErr where
  | notFound
  | expired
deriving DecidableEq, Repr

/-- CacheEntry.IsExpired from internal/cache/cache.go: a zero TTL never
expires, otherwise the entry is expired once `now - timestamp > ttl`. -/
def isExpired (ttl now timestamp : Int) : Bool :=
  if ttl = 0 then false else now - timestamp > ttl

/-- One stored coded-owners row of the SQLite backend: key (owner, repo),
payload and write timestamp. -/
structure CORow where
  owner : GoStr
  repo : GoStr
  data : GoStr
  timestamp : Int
deriving DecidableEq, Repr

/-- Primary-key lookup in the codeowners table. -/
def lookupCO (rows : List CORow) (owner repo : GoStr) : Option CORow :=
  rows.find? fun r => r.owner == owner && r.repo == repo

/-- SQLiteCache.GetCODEOWNERS from internal/cache/sqlite.go: row lookup,
then the TTL check, skipped entirely when `ignoreTTL` is set. -/
def sqliteGetCODEOWNERS (rows : List CORow) (ttl : Int) (ignoreTTL : Bool)
    (now : Int) (owner repo : GoStr) : Except CacheErr GoStr :=
  match lookupCO rows owner repo with
  | none => .error .notFound
  | some row =>
    if !ignoreTTL && isExpired ttl now row.timestamp then .error .expired
    else .ok row.data

/-- JSONCache.getJSON from the JSON backend: reads the entry file (modelled
as an optional payload-timestamp pair) and checks expiry against the
backend's TTL.  The backend has no `ignoreTTL` field, so the check is
unconditional. -/
def jsonGetEntry (file : Option (GoStr × Int)) (ttl : Int) (now : Int) :
    Except CacheErr GoStr :=
  match file with
  | none => .error .notFound
  | some (data, timestamp) =>
    if isExpired ttl now timestamp then .error .expired
    else .ok data

/-!
Embedding of the analyzer package: owner resolution per pull request,
attribution mode, team rollups, filtering, per-repository processing and
result aggregation.  I/O context (rate limiter and cache lookups, API
fetches) is passed in as data; the rate-limiter wait is modelled as
succeeding.  Go's unordered map iteration is modelled as insertion order;
every aggregated count is insensitive to that order.
-/

/-- A pull request, reduced to the fields the analyzer reads: number,
author login, title, and the changed-file paths (the `GetPRFiles` /
`FetchPRFiles` payload for this PR). -/
structure PullRequest where
  number : Nat
  author : Option GoStr
  title : GoStr
  files : List GoStr
deriving DecidableEq, Repr

/-- RepoResult from the analyzer package. -/
structure RepoResult where
  repoName : GoStr
  prs : List PullRequest
  codeowners : Option CODEOWNERSFile
  err : Option GoStr
deriving DecidableEq, Repr

/-- One team-rollup entry of the configuration (referenced as
`cfg.TeamRollup` with fields `Name` and `Teams` by the analyzer; the struct
itself is not part of the sources, its shape is determined by those uses
and by the spec's RollupConfig). -/
structure TeamRollup where
  name : GoStr
  teams : List GoStr
deriving DecidableEq, Repr

/-- normalizeOwner from the analyzer package: strips a leading `@`. -/
def normalizeOwner (owner : GoStr) : GoStr :=
  strTrimPre owner ['@']

/-- getRollupTeams from the analyzer package: the names of the rollups
having a member team with the same normalized name, each rollup counted
once (the source breaks out of the inner loop after the first member
match). -/
def getRollupTeams (rollups : List TeamRollup) (team : GoStr) : List GoStr :=
  rollups.filterMap fun ru =>
    if ru.teams.any (fun t => normalizeOwner t == normalizeOwner team) then
      some ru.name
    else none

/-- isTeamInRollup from the analyzer package. -/
def isTeamInRollup (rollups : List TeamRollup) (team : GoStr) : Bool :=
  rollups.any fun ru =>
    ru.teams.any fun t => normalizeOwner t == normalizeOwner team

/-- Insertion into the model of a Go `map[string]bool` used as a set:
membership keyed insert, keeping first-insertion order. -/
def insertIfAbsent (l : List GoStr) (x : GoStr) : List GoStr :=
  if x ∈ l then l else l ++ [x]

/-- The owner-collection loop of `mapPROwners`: union of `FindOwners` over
all changed files of the PR, deduplicated (the source collects into
`map[string]bool`). -/
def mapPROwners (codeowners : CODEOWNERSFile) (files : List GoStr) : List GoStr :=
  files.foldl (fun acc f => (findOwners codeowners f).foldl insertIfAbsent acc) []

/-- applyAttributionMode from the analyzer package. -/
def applyAttributionMode (mode : GoStr) (owners : List GoStr) : List GoStr :=
  match owners with
  | [] => []
  | o :: rest =>
    if mode == gs "first-owner-only" then [o]
    else if mode == gs "primary" then [o]
    else o :: rest

/-- The team keys a single PR's resolved owner list increments in
`aggregateResults`: the `no_codeowners` sentinel for an empty list,
otherwise the set of rollup names of rollup-member owners followed by the
set of normalized names of the remaining owners. -/
def aggregatePRTeams (rollups : List TeamRollup) (owners : List GoStr) :
    List GoStr :=
  match owners with
  | [] => [gs "no_codeowners"]
  | _ =>
    let sets := owners.foldl
      (fun (acc : List GoStr × List GoStr) o =>
        if isTeamInRollup rollups o then
          ((getRollupTeams rollups o).foldl insertIfAbsent acc.1, acc.2)
        else
          (acc.1, insertIfAbsent acc.2 (normalizeOwner o)))
      ([], [])
    sets.1 ++ sets.2

/-- Increment of one counter in a count map (Go `map[string]int` with zero
default). -/
def bump (c : GoStr → Nat) (k : GoStr) : GoStr → Nat :=
  fun x => if x = k then c k + 1 else c x

/-- Increment of every counter in `keys` once. -/
def bumpAll (c : GoStr → Nat) (keys : List GoStr) : GoStr → Nat :=
  keys.foldl bump c

/-- Assignment in a count map (for `PRsByRepo[repoName] = prCount`). -/
def setCount (c : GoStr → Nat) (k : GoStr) (v : Nat) : GoStr → Nat :=
  fun x => if x = k then v else c x

/-- The AnalysisResult counters `aggregateResults` fills (time window and
generation time omitted; count maps have zero default). -/
structure AnalysisResult where
  totalPRsClosed : Nat
  prsByRepo : GoStr → Nat
  prsByTeam : GoStr → Nat
  prsByUser : GoStr → Nat

/-- The resolved owners of one PR inside the aggregation loop: mapped
through CODEOWNERS when the repository has one, then the attribution
mode. -/
def resolvePROwners (mode : GoStr) (codeowners : Option CODEOWNERSFile)
    (pr : PullRequest) : List GoStr :=
  match codeowners with
  | none => []
  | some co => applyAttributionMode mode (mapPROwners co pr.files)

/-- Per-repository step of `aggregateResults`: results carrying an error
are skipped (logged in the source); otherwise the repository, user and
team counters are updated. -/
def aggregateStep (rollups : List TeamRollup) (mode : GoStr)
    (agg : AnalysisResult) (result : RepoResult) : AnalysisResult :=
  match result.err with
  | some _ => agg
  | none =>
    let prCount := result.prs.length
    let agg : AnalysisResult :=
      { agg with
        prsByRepo := setCount agg.prsByRepo result.repoName prCount
        totalPRsClosed := agg.totalPRsClosed + prCount }
    let byUser := result.prs.foldl
      (fun c pr => match pr.author with
        | some u => bump c u
        | none => c)
      agg.prsByUser
    let byTeam := result.prs.foldl
      (fun c pr =>
        bumpAll c (aggregatePRTeams rollups (resolvePROwners mode result.codeowners pr)))
      agg.prsByTeam
    { agg with prsByUser := byUser, prsByTeam := byTeam }

/-- The empty accumulator `aggregateResults` starts from. -/
def emptyAggregate : AnalysisResult :=
  ⟨0, fun _ => 0, fun _ => 0, fun _ => 0⟩

/-- aggregateResults from the analyzer package, folded over the repository
results. -/
def aggregateResults (rollups : List TeamRollup) (mode : GoStr)
    (results : List RepoResult) : AnalysisResult :=
  results.foldl (aggregateStep rollups mode) emptyAggregate

/-- The author/title-based PR exclusion filter `applyFilters` of the
analyzer package. -/
def applyFilters (excludeAuthors : List GoStr) (excludeTitlePres : List GoStr)
    (prs : List PullRequest) : List PullRequest :=
  prs.filter fun pr =>
    !((match pr.author with
       | some u => excludeAuthors.contains u
       | none => false) ||
      excludeTitlePres.any fun p => strHasPre p pr.title)

/-- The I/O a single repository task can observe, passed as data: cache
presence and its lookup results, and the API fetch results. -/
structure RepoCtx where
  hasCache : Bool
  cacheCODEOWNERS : Except CacheErr GoStr
  cachePRs : Except CacheErr (List PullRequest)
  fetchCODEOWNERS : Except GoStr (Option (GoStr × GoStr))
  fetchPRs : Except GoStr (List PullRequest)
deriving Repr

/-- The CODEOWNERS file `processRepo` ends up with: a non-empty cached
payload is parsed; otherwise, outside cache-only mode, the fetch result is
used (a fetch error is logged and the task continues without
CODEOWNERS). -/
def repoCodeowners (skipAPICalls : Bool) (ctx : RepoCtx) : Option CODEOWNERSFile :=
  let cached : Option CODEOWNERSFile :=
    if ctx.hasCache then
      match ctx.cacheCODEOWNERS with
      | .ok content => if content ≠ [] then some (parseCODEOWNERS content []) else none
      | .error _ => none
    else none
  match cached with
  | some co => some co
  | none =>
    if skipAPICalls then none
    else
      match ctx.fetchCODEOWNERS with
      | .ok (some (content, path)) => some (parseCODEOWNERS content path)
      | .ok none => none
      | .error _ => none

/-- The cached PR list `processRepo` starts from: empty unless the cache is
configured and the lookup succeeds with a non-empty list. -/
def cachedRepoPRs (ctx : RepoCtx) : List PullRequest :=
  if ctx.hasCache then
    match ctx.cachePRs with
    | .ok l => l
    | .error _ => []
  else []

/-- The error message of the cache-only PR miss in `processRepo`. -/
def errNoCachedPRs : GoStr := gs "no cached PRs found and --skip-api-calls is enabled"

/-- processRepo from the analyzer package (rate-limiter wait modelled as
succeeding; cache writes have no effect on the returned result and are
omitted). -/
def processRepo (skipAPICalls : Bool) (excludeAuthors excludeTitlePres : List GoStr)
    (repoName : GoStr) (ctx : RepoCtx) : RepoResult :=
  let codeowners := repoCodeowners skipAPICalls ctx
  let prs := cachedRepoPRs ctx
  if prs = [] then
    if skipAPICalls then
      ⟨repoName, [], codeowners, some errNoCachedPRs⟩
    else
      match ctx.fetchPRs with
      | .error e => ⟨repoName, [], codeowners, some (gs "failed to fetch PRs: " ++ e)⟩
      | .ok fetched =>
        ⟨repoName, applyFilters excludeAuthors excludeTitlePres fetched, codeowners, none⟩
  else
    ⟨repoName, applyFilters excludeAuthors excludeTitlePres prs, codeowners, none⟩

/-- The repository-enumeration phase of `Analyzer.Analyze`, up to the point
where per-repository processing starts: the cached list is consulted first;
the source then returns the error `no repositories found` whenever that
list is empty — the API fall-back block below it is guarded by the same
condition and is unreachable. -/
def analyzeEnumRepos (cacheConfigured : Bool)
    (cachedRepos : Except CacheErr (List GoStr)) (skipAPICalls : Bool)
    (fetchRepos : Except GoStr (List GoStr)) : Except GoStr (List GoStr) :=
  let repos : List GoStr :=
    if cacheConfigured then
      match cachedRepos with
      | .ok l => l
      | .error _ => []
    else []
  if repos = [] then .error (gs "no repositories found")
  else if repos = [] then
    if skipAPICalls then
      .error (gs "no cached repositories found and --skip-api-calls is enabled")
    else
      match fetchRepos with
      | .error e => .error (gs "failed to enumerate repositories: " ++ e)
      | .ok fetched => .ok fetched
  else .ok repos

/-!
Embedding of the SQLite schema migration (`SQLiteCache.migrateSchema`,
`SQLiteCache.migrateFromV1ToV2`).  Timestamps are integers; the RFC3339
`since`/`until` strings of a version-1 row are modelled as already-parsed
optional instants (`none` models an unparseable string, which makes the
source skip the row); JSON (un)marshalling of a PR is the identity.
-/

/-- The PR payload fields the migration reads. -/
structure CachedPR where
  number : Option Nat
  createdAt : Option Int
  closedAt : Option Int
deriving DecidableEq, Repr

/-- A row of the version-1 `prs` table: one time-window-keyed blob of
PRs. -/
structure V1PRRow where
  owner : GoStr
  repo : GoStr
  since : Option Int
  until_ : Option Int
  prs : List CachedPR
  timestamp : Int
deriving DecidableEq, Repr

/-- A row of the version-2 `prs` table: one PR keyed by
(owner, repo, number). -/
structure V2PRRow where
  owner : GoStr
  repo : GoStr
  prNumber : Nat
  pr : CachedPR
  timestamp : Int
deriving DecidableEq, Repr

/-- The two on-disk layouts of the `prs` table. -/
inductive PRLayout where
  | v1 (rows : List V1PRRow)
  | v2 (rows : List V2PRRow)
deriving DecidableEq, Repr

/-- The cache store as the migration sees it: the stamped schema version
and the `prs` table layout. -/
structure SqliteStore where
  version : Nat
  layout : PRLayout
deriving DecidableEq, Repr

/-- `INSERT OR REPLACE` into the version-2 table: a row with the same
primary key is replaced in place, otherwise the row is appended. -/
def insertOrReplaceV2 (rows : List V2PRRow) (row : V2PRRow) : List V2PRRow :=
  if rows.any (fun r => r.owner == row.owner && r.repo == row.repo &&
      r.prNumber == row.prNumber) then
    rows.map fun r =>
      if r.owner == row.owner && r.repo == row.repo && r.prNumber == row.prNumber
      then row else r
  else rows ++ [row]

/-- Migration of the PRs of one version-1 row: a PR is carried over exactly
when it has a number and a closed-timestamp inside the row's window
(`!closedAt.Before(since) && !closedAt.After(until)`). -/
def migrateRow (tbl : List V2PRRow) (row : V1PRRow) : List V2PRRow :=
  match row.since, row.until_ with
  | some si, some un =>
    row.prs.foldl
      (fun tbl pr =>
        match pr.number with
        | none => tbl
        | some n =>
          match pr.closedAt with
          | some cl =>
            if si ≤ cl ∧ cl ≤ un then
              insertOrReplaceV2 tbl ⟨row.owner, row.repo, n, pr, row.timestamp⟩
            else tbl
          | none => tbl)
      tbl
  | _, _ => tbl

/-- SQLiteCache.migrateFromV1ToV2: with the old layout present, rebuild the
table in the per-PR layout, drop the old table and stamp version 2; with
the table already in the new layout only the version is stamped. -/
def migrateFromV1ToV2 (s : SqliteStore) : SqliteStore :=
  match s.layout with
  | .v2 rows => ⟨2, .v2 rows⟩
  | .v1 rows => ⟨2, .v2 (rows.foldl migrateRow [])⟩

/-- SQLiteCache.migrateSchema: no-op at or above the target version 2,
migration from version 1, and no migration path otherwise. -/
def migrateSchema (s : SqliteStore) : SqliteStore :=
  if s.version ≥ 2 then s
  else if s.version = 1 then migrateFromV1ToV2 s
  else s

/-!
Embedding of internal/github `Client.RetryWithBackoff` and
`Client.calculateBackoff`.  Durations are exact rationals (the source's
float64 rounding is not modelled); `time.Until(resp.Rate.Reset.Time)` at
the moment the response is handled is the `resetWait` field; the
rate-limiter admission wait is modelled as succeeding.  The slept delays
are returned alongside the result so that the backoff schedule is
observable.
-/

/-- The response fields the retry wrapper reads. -/
structure GoResp where
  status : Nat
  remaining : Nat
  resetIsZero : Bool
  resetWait : ℚ
deriving DecidableEq, Repr

/-- Outcome of one invocation of the wrapped operation. -/
inductive AttemptOutcome where
  | ok (resp : GoResp)
  | fail (resp : Option GoResp) (err : GoStr)
deriving DecidableEq, Repr

/-- Result of the retry wrapper; `maxRetriesExceeded` carries the last
error and last response the wrapped `max retries exceeded: %w` return
carries. -/
inductive RetryResult where
  | success (resp : GoResp)
  | failure (resp : Option GoResp) (err : GoStr)
  | maxRetriesExceeded (lastResp : Option GoResp) (lastErr : GoStr)
deriving DecidableEq, Repr

/-- Client.calculateBackoff: `base * 2^attempt` plus 10 percent jitter. -/
def calculateBackoff (base : ℚ) (attempt : Nat) : ℚ :=
  base * 2 ^ attempt + base * 2 ^ attempt / 10

/-- Whether a failure status is retried: 429 (http.StatusTooManyRequests)
or any server error status. -/
def retryableStatus (status : Nat) : Bool :=
  status == 429 || status ≥ 500

/-- The delay slept after a retryable failure at `attempt`: the exponential
backoff, replaced by the reported reset wait whenever the status is 429,
the reset time is set and the wait is positive. -/
def stepDelay (base : ℚ) (attempt : Nat) (resp : GoResp) : ℚ :=
  if resp.status = 429 ∧ resp.resetIsZero = false ∧ 0 < resp.resetWait then
    resp.resetWait
  else calculateBackoff base attempt

/-- The retry loop of `Client.RetryWithBackoff`; `fuel` is the number of
attempts left (`maxRetries - attempt`).  Returns the result together with
the list of slept delays. -/
def retryAux (base : ℚ) (outcomes : Nat → AttemptOutcome) :
    Nat → Nat → Option GoResp → GoStr → RetryResult × List ℚ
  | _, 0, lastResp, lastErr => (.maxRetriesExceeded lastResp lastErr, [])
  | attempt, fuel + 1, _, _ =>
    match outcomes attempt with
    | .ok resp =>
      if resp.remaining = 0 ∧ 0 < resp.resetWait then
        (.success resp, [resp.resetWait])
      else (.success resp, [])
    | .fail oresp err =>
      match oresp with
      | some resp =>
        if retryableStatus resp.status then
          let rec1 := retryAux base outcomes (attempt + 1) fuel (some resp) err
          (rec1.1, stepDelay base attempt resp :: rec1.2)
        else (.failure (some resp) err, [])
      | none => (.failure none err, [])

/-- Client.RetryWithBackoff from internal/github/client.go. -/
def retryWithBackoff (maxRetries : Nat) (base : ℚ)
    (outcomes : Nat → AttemptOutcome) : RetryResult × List ℚ :=
  retryAux base outcomes 0 maxRetries none []

/-- Outcome sequence exhibiting the reset-wait override: the first attempt
fails with status 429 and a positive reported reset wait of 1/2, smaller
than the exponential backoff; the second attempt succeeds. -/
def retryResetOutcomes : Nat → AttemptOutcome := fun k =>
  if k = 0 then .fail (some ⟨429, 0, false, 1 / 2⟩) (gs "rate limited")
  else .ok ⟨200, 5, true, 0⟩

/-- The ownership file of the end-to-end scenario: `* @team1` then
`/docs/ @team2`. -/
def scenarioFile : CODEOWNERSFile :=
  parseCODEOWNERS (gs "* @team1\n/docs/ @team2") (gs "CODEOWNERS")

/-- A pull request whose only changed file is `docs/readme.md`. -/
def docsPR : PullRequest := ⟨1, some (gs "alice"), gs "Update docs", [gs "docs/readme.md"]⟩

/-- A pull request whose only changed file is `src/app.go`. -/
def srcPR : PullRequest := ⟨2, some (gs "bob"), gs "Fix app", [gs "src/app.go"]⟩

/-- The scenario repository result holding only the docs pull request. -/
def docsResult : RepoResult := ⟨gs "org/repo", [docsPR], some scenarioFile, none⟩

/-- The scenario repository result holding only the src pull request. -/
def srcResult : RepoResult := ⟨gs "org/repo", [srcPR], some scenarioFile, none⟩

/-- The ownership file of the rollup scenario: every root file is owned by
`@infra` and `@sre`. -/
def infraFile : CODEOWNERSFile := parseCODEOWNERS (gs "* @infra @sre") (gs "CODEOWNERS")

/-- A pull request touching the root file `app.go`, which resolves to both
rollup members. -/
def infraPR : PullRequest := ⟨7, some (gs "carol"), gs "Infra change", [gs "app.go"]⟩

/-- The rollup-scenario repository result. -/
def infraResult : RepoResult := ⟨gs "org/infra-repo", [infraPR], some infraFile, none⟩

/-- The configured rollup `platform = {@infra, @sre}`. -/
def platformRollup : TeamRollup := ⟨gs "platform", [gs "@infra", gs "@sre"]⟩

/-!
Theorems.
-/

/-- C4 counterexample: the claim says a read at any time `≥ T + D` is not
found, but at exactly `T + D` the strict comparison in `IsExpired` leaves
the entry live, so a read there still succeeds (entry written at 0, TTL 5,
read at 5 with `ignoreTTL` false). -/
theorem sqlite_ttl_at_exact_expiry_counterexample :
    (5 : Int) ≥ 0 + 5 ∧ (0 : Int) < 5 ∧
    sqliteGetCODEOWNERS [⟨gs "o", gs "r", gs "payload", 0⟩] 5 false 5
      (gs "o") (gs "r") = .ok (gs "payload") := by
  refine ⟨by norm_num, by norm_num, ?_⟩
  rfl

/-- C4 (amended): for an entry present in the store with TTL `D > 0`, a
read with `ignoreTTL = false` reports the entry as not found at every time
strictly greater than `T + D` and finds it at every time up to `T + D`;
with `ignoreTTL = true` the read finds it at any time. -/
theorem sqlite_ttl_semantics (rows : List CORow) (ttl now : Int)
    (owner repo : GoStr) (row : CORow)
    (hrow : lookupCO rows owner repo = some row) (hD : 0 < ttl) :
    (row.timestamp + ttl < now →
      sqliteGetCODEOWNERS rows ttl false now owner repo = .error .expired) ∧
    (now ≤ row.timestamp + ttl →
      sqliteGetCODEOWNERS rows ttl false now owner repo = .ok row.data) ∧
    sqliteGetCODEOWNERS rows ttl true now owner repo = .ok row.data := by
  have httl : ttl ≠ 0 := by omega
  refine ⟨fun h => ?_, fun h => ?_, ?_⟩ <;>
    simp only [sqliteGetCODEOWNERS, hrow, isExpired, httl, if_false,
      Bool.not_true, Bool.not_false, Bool.false_and, Bool.true_and, if_true]
  · have hgt : now - row.timestamp > ttl := by omega
    simp [hgt]
  · have hle : ¬ now - row.timestamp > ttl := by omega
    simp [hle]
  · simp

/-- Witness for `sqlite_ttl_semantics`: entry written at 0 with TTL 5 is
expired for a read at 6. -/
theorem sqlite_ttl_semantics_witness :
    sqliteGetCODEOWNERS [⟨gs "o", gs "r", gs "payload", 0⟩] 5 false 6
      (gs "o") (gs "r") = .error .expired :=
  (sqlite_ttl_semantics [⟨gs "o", gs "r", gs "payload", 0⟩] 5 6
    (gs "o") (gs "r") ⟨gs "o", gs "r", gs "payload", 0⟩ rfl (by norm_num)).1
    (by norm_num)

/-- C5: the two backends disagree on TTL semantics when `ignoreTTL` is set:
for the same entry (written at 0, TTL 5) read at 10 with `ignoreTTL = true`,
the SQLite backend returns the payload while the JSON backend's `getJSON`
reports it expired — the JSON backend has no `ignoreTTL` field at all, even
though `cache.NewCache` passes `ignoreTTL` to its constructor. -/
theorem backend_ignorettl_divergence :
    sqliteGetCODEOWNERS [⟨gs "o", gs "r", gs "payload", 0⟩] 5 true 10
      (gs "o") (gs "r") = .ok (gs "payload") ∧
    jsonGetEntry (some (gs "payload", 0)) 5 10 = .error .expired := by
  exact ⟨rfl, rfl⟩

/-- C7: with a configured cache whose repository lookup yields no entries
and API calls enabled (`skipAPICalls = false`), the enumeration phase of
`Analyze` returns the error `no repositories found` no matter what the API
fetch would return: the fall-back fetch is dead code because an identical
emptiness check returns first. -/
theorem analyze_enumeration_dead_fallback :
    ∀ fetchRepos : Except GoStr (List GoStr),
      analyzeEnumRepos true (.ok []) false fetchRepos =
        .error (gs "no repositories found") ∧
      analyzeEnumRepos true (.error .notFound) false fetchRepos =
        .error (gs "no repositories found") := by
  intro fetchRepos
  exact ⟨rfl, rfl⟩

/-- C10: a zero TTL disables expiry entirely: `IsExpired` is false for
every entry age, and both backends treat any stored entry as live even with
`ignoreTTL = false`. -/
theorem zero_ttl_never_expires :
    (∀ now timestamp : Int, isExpired 0 now timestamp = false) ∧
    (∀ (rows : List CORow) (owner repo : GoStr) (row : CORow) (now : Int),
      lookupCO rows owner repo = some row →
      sqliteGetCODEOWNERS rows 0 false now owner repo = .ok row.data) ∧
    (∀ (data : GoStr) (timestamp now : Int),
      jsonGetEntry (some (data, timestamp)) 0 now = .ok data) := by
  refine ⟨fun now ts => rfl, fun rows owner repo row now hrow => ?_, fun d ts now => rfl⟩
  simp [sqliteGetCODEOWNERS, hrow, isExpired]

/-- Witness for `zero_ttl_never_expires`: an arbitrarily old entry is still
served with TTL 0. -/
theorem zero_ttl_never_expires_witness :
    sqliteGetCODEOWNERS [⟨gs "o", gs "r", gs "payload", 0⟩] 0 false 1000000
      (gs "o") (gs "r") = .ok (gs "payload") :=
  zero_ttl_never_expires.2.1 [⟨gs "o", gs "r", gs "payload", 0⟩]
    (gs "o") (gs "r") ⟨gs "o", gs "r", gs "payload", 0⟩ 1000000 rfl

/-- C6: in cache-only mode (`skipAPICalls = true`), a pull-request cache
miss makes the repository task terminate in a failed result carrying the
explicit cache-only error for that repository alone; aggregation skips any
errored repository and still folds in every other repository, so the run
continues. -/
theorem cacheonly_pr_miss_repo_scoped :
    (∀ (excludeAuthors excludeTitlePres : List GoStr) (repoName : GoStr)
        (ctx : RepoCtx),
      cachedRepoPRs ctx = [] →
      processRepo true excludeAuthors excludeTitlePres repoName ctx =
        ⟨repoName, [], repoCodeowners true ctx, some errNoCachedPRs⟩) ∧
    (∀ (rollups : List TeamRollup) (mode : GoStr) (pre post : List RepoResult)
        (r : RepoResult) (e : GoStr),
      r.err = some e →
      aggregateResults rollups mode (pre ++ r :: post) =
        aggregateResults rollups mode (pre ++ post)) := by
  constructor
  · intro exA exT repoName ctx hmiss
    simp [processRepo, hmiss]
  · intro rollups mode pre post r e herr
    simp [aggregateResults, List.foldl_append]
    have hstep : ∀ agg, aggregateStep rollups mode agg r = agg := by
      intro agg
      simp [aggregateStep, herr]
    simp [List.foldl_cons, hstep]

/-- Witness for `cacheonly_pr_miss_repo_scoped`: a concrete cache-only miss
fails only its own repository and drops out of the aggregate, leaving the
other repository counted. -/
theorem cacheonly_pr_miss_repo_scoped_witness :
    processRepo true [] [] (gs "org/missing")
        ⟨true, .error .notFound, .error .notFound, .ok none, .ok []⟩ =
      ⟨gs "org/missing", [],
        repoCodeowners true ⟨true, .error .notFound, .error .notFound, .ok none, .ok []⟩,
        some errNoCachedPRs⟩ ∧
    aggregateResults [] (gs "multi")
        ([] ++ RepoResult.mk (gs "org/missing") [] none (some errNoCachedPRs) ::
          [RepoResult.mk (gs "org/ok") [⟨1, some (gs "alice"), gs "t", []⟩] none none]) =
      aggregateResults [] (gs "multi")
        ([] ++ [RepoResult.mk (gs "org/ok") [⟨1, some (gs "alice"), gs "t", []⟩] none none]) :=
  ⟨cacheonly_pr_miss_repo_scoped.1 [] [] (gs "org/missing")
      ⟨true, .error .notFound, .error .notFound, .ok none, .ok []⟩ rfl,
    cacheonly_pr_miss_repo_scoped.2 [] (gs "multi") []
      [RepoResult.mk (gs "org/ok") [⟨1, some (gs "alice"), gs "t", []⟩] none none]
      (RepoResult.mk (gs "org/missing") [] none (some errNoCachedPRs))
      errNoCachedPRs rfl⟩

/-- C8: migrating a version-1 store holding one window-keyed record with
three PRs, two of them closed inside the window and one outside, yields a
version-2 store whose `prs` table holds exactly the two in-window PRs as
per-record entries, and running the migration again is a no-op. -/
theorem migration_v1_to_v2_scenario (owner repo : GoStr) (si un ts : Int)
    (p1 p2 p3 : CachedPR) (n1 n2 n3 : Nat) (c1 c2 c3 : Int)
    (hp1 : p1.number = some n1) (hc1 : p1.closedAt = some c1)
    (hp2 : p2.number = some n2) (hc2 : p2.closedAt = some c2)
    (hp3 : p3.number = some n3) (hc3 : p3.closedAt = some c3)
    (hw1 : si ≤ c1 ∧ c1 ≤ un) (hw2 : si ≤ c2 ∧ c2 ≤ un)
    (hw3 : c3 < si ∨ un < c3) (hnn : n1 ≠ n2) :
    migrateSchema ⟨1, .v1 [⟨owner, repo, some si, some un, [p1, p2, p3], ts⟩]⟩ =
      ⟨2, .v2 [⟨owner, repo, n1, p1, ts⟩, ⟨owner, repo, n2, p2, ts⟩]⟩ ∧
    migrateSchema
        (migrateSchema ⟨1, .v1 [⟨owner, repo, some si, some un, [p1, p2, p3], ts⟩]⟩) =
      migrateSchema ⟨1, .v1 [⟨owner, repo, some si, some un, [p1, p2, p3], ts⟩]⟩ := by
  have hw3n : ¬ (si ≤ c3 ∧ c3 ≤ un) := by omega
  have h1 : migrateSchema ⟨1, .v1 [⟨owner, repo, some si, some un, [p1, p2, p3], ts⟩]⟩ =
      ⟨2, .v2 [⟨owner, repo, n1, p1, ts⟩, ⟨owner, repo, n2, p2, ts⟩]⟩ := by
    have hne : (n1 == n2) = false := by simp [hnn]
    simp only [migrateSchema, migrateFromV1ToV2]
    norm_num
    simp [migrateRow, hp1, hp2, hp3, hc1, hc2, hc3, hw1, hw2, hw3n,
      insertOrReplaceV2, hne]
    exact hnn
  refine ⟨h1, ?_⟩
  rw [h1]
  rfl

/-- Witness for `migration_v1_to_v2_scenario`: a concrete window 0..10 with
closed times 1, 2 inside and 20 outside. -/
theorem migration_v1_to_v2_scenario_witness :
    migrateSchema ⟨1, .v1 [⟨gs "o", gs "r", some 0, some 10,
        [⟨some 1, some 0, some 1⟩, ⟨some 2, some 0, some 2⟩,
          ⟨some 3, some 0, some 20⟩], 99⟩]⟩ =
      ⟨2, .v2 [⟨gs "o", gs "r", 1, ⟨some 1, some 0, some 1⟩, 99⟩,
        ⟨gs "o", gs "r", 2, ⟨some 2, some 0, some 2⟩, 99⟩]⟩ :=
  (migration_v1_to_v2_scenario (gs "o") (gs "r") 0 10 99
    ⟨some 1, some 0, some 1⟩ ⟨some 2, some 0, some 2⟩ ⟨some 3, some 0, some 20⟩
    1 2 3 1 2 20 rfl rfl rfl rfl rfl rfl (by norm_num) (by norm_num)
    (by norm_num) (by norm_num)).1

/-- C9 counterexample: the claim says the reset-time wait overrides the
backoff only when it is larger, but the source overrides whenever the wait
is positive: here the computed backoff for attempt 0 is 11/10, the reported
reset wait is the smaller 1/2, and the wrapper sleeps exactly 1/2. -/
theorem retry_reset_override_counterexample :
    retryWithBackoff 2 1 retryResetOutcomes =
      (.success ⟨200, 5, true, 0⟩, [1 / 2]) ∧
    calculateBackoff 1 0 = 11 / 10 ∧ (1 / 2 : ℚ) < 11 / 10 := by
  refine ⟨?_, by norm_num [calculateBackoff], by norm_num⟩
  show retryAux 1 retryResetOutcomes 0 2 none [] = _
  simp only [retryWithBackoff, retryAux, retryResetOutcomes]
  norm_num [retryableStatus, stepDelay]

/-- All-retryable runs of the retry loop: when every remaining attempt
fails with a retryable response, the loop sleeps the per-attempt delay each
time and ends with the max-retries result carrying the last error and
response. -/
theorem retryAux_all_retryable (base : ℚ) (outs : Nat → AttemptOutcome)
    (r : Nat → GoResp) (e : Nat → GoStr) :
    ∀ fuel attempt lastResp lastErr, 0 < fuel →
    (∀ k, attempt ≤ k → k < attempt + fuel →
      outs k = .fail (some (r k)) (e k) ∧ retryableStatus (r k).status = true) →
    retryAux base outs attempt fuel lastResp lastErr =
      (.maxRetriesExceeded (some (r (attempt + fuel - 1))) (e (attempt + fuel - 1)),
       (List.range fuel).map fun i => stepDelay base (attempt + i) (r (attempt + i))) := by
  intro fuel
  induction fuel with
  | zero => intro attempt lastResp lastErr h; omega
  | succ f ih =>
    intro attempt lastResp lastErr _ hall
    have hthis := hall attempt (le_refl _) (by omega)
    simp only [retryAux, hthis.1, hthis.2, if_true]
    cases Nat.eq_zero_or_pos f with
    | inl hf0 =>
      subst hf0
      simp [retryAux, stepDelay, List.range_succ]
    | inr hfpos =>
      have hrec := ih (attempt + 1) (some (r attempt)) (e attempt) hfpos
        (fun k hk1 hk2 => hall k (by omega) (by omega))
      rw [hrec]
      have harith : attempt + 1 + f - 1 = attempt + (f + 1) - 1 := by omega
      rw [harith]
      have hfun : ((fun i => stepDelay base (attempt + i) (r (attempt + i))) ∘ Nat.succ) =
          fun i => stepDelay base (attempt + 1 + i) (r (attempt + 1 + i)) := by
        funext i
        have hidx : attempt + Nat.succ i = attempt + 1 + i := by omega
        simp only [Function.comp_apply, hidx]
      rw [List.range_succ_eq_map, List.map_cons, List.map_map, hfun, Nat.add_zero]
      simp

/-- C9 (amended): the wrapper retries only on status 429 or a server error
(any other failure, including a nil response, returns immediately without a
retry); the slept delay is the exponential backoff `base * 2^attempt` plus
10 percent jitter, replaced by the reported reset wait whenever the status
is 429, the reset time is set and the wait is positive (even when it is
smaller than the backoff); and when every attempt fails retryably the
wrapper returns the wrapped max-retries result carrying the last error and
last response, having slept once per attempt. -/
theorem retry_with_backoff_amended :
    (∀ (base : ℚ) (outs : Nat → AttemptOutcome) (attempt fuel : Nat)
        (lastResp : Option GoResp) (lastErr : GoStr) (resp : GoResp) (err : GoStr),
      outs attempt = .fail (some resp) err → retryableStatus resp.status = false →
      retryAux base outs attempt (fuel + 1) lastResp lastErr =
        (.failure (some resp) err, [])) ∧
    (∀ (base : ℚ) (outs : Nat → AttemptOutcome) (attempt fuel : Nat)
        (lastResp : Option GoResp) (lastErr : GoStr) (err : GoStr),
      outs attempt = .fail none err →
      retryAux base outs attempt (fuel + 1) lastResp lastErr =
        (.failure none err, [])) ∧
    (∀ (base : ℚ) (outs : Nat → AttemptOutcome) (attempt fuel : Nat)
        (lastResp : Option GoResp) (lastErr : GoStr) (resp : GoResp) (err : GoStr),
      outs attempt = .fail (some resp) err → retryableStatus resp.status = true →
      retryAux base outs attempt (fuel + 1) lastResp lastErr =
        ((retryAux base outs (attempt + 1) fuel (some resp) err).1,
          stepDelay base attempt resp ::
            (retryAux base outs (attempt + 1) fuel (some resp) err).2)) ∧
    (∀ (base : ℚ) (n : Nat),
      calculateBackoff base n = base * 2 ^ n + base * 2 ^ n / 10) ∧
    (∀ (maxRetries : Nat) (base : ℚ) (outs : Nat → AttemptOutcome)
        (r : Nat → GoResp) (e : Nat → GoStr),
      0 < maxRetries →
      (∀ k, k < maxRetries →
        outs k = .fail (some (r k)) (e k) ∧ retryableStatus (r k).status = true) →
      retryWithBackoff maxRetries base outs =
        (.maxRetriesExceeded (some (r (maxRetries - 1))) (e (maxRetries - 1)),
         (List.range maxRetries).map fun k => stepDelay base k (r k))) := by
  refine ⟨?_, ?_, ?_, fun base n => rfl, ?_⟩
  · intro base outs attempt fuel lastResp lastErr resp err hout hstat
    simp [retryAux, hout, hstat]
  · intro base outs attempt fuel lastResp lastErr err hout
    simp [retryAux, hout]
  · intro base outs attempt fuel lastResp lastErr resp err hout hstat
    simp [retryAux, hout, hstat]
  · intro maxRetries base outs r e hpos hall
    have h := retryAux_all_retryable base outs r e maxRetries 0 none [] hpos
      (fun k hk1 hk2 => hall k (by omega))
    simpa [retryWithBackoff] using h

/-- Witness for `retry_with_backoff_amended`: two retryable 500-status
failures exhaust a two-attempt budget with backoff sleeps 11/10 and 11/5. -/
theorem retry_with_backoff_amended_witness :
    retryWithBackoff 2 1 (fun _ => .fail (some ⟨500, 1, true, 0⟩) (gs "boom")) =
      (.maxRetriesExceeded (some ⟨500, 1, true, 0⟩) (gs "boom"),
       [11 / 10, 11 / 5]) := by
  have h := retry_with_backoff_amended.2.2.2.2 2 1
    (fun _ => .fail (some ⟨500, 1, true, 0⟩) (gs "boom"))
    (fun _ => ⟨500, 1, true, 0⟩) (fun _ => gs "boom") (by norm_num)
    (fun _ _ => ⟨rfl, rfl⟩)
  rw [h]
  norm_num [stepDelay, calculateBackoff, List.range_succ]

/-- C2 counterexample: with the scenario ownership file, no rule matches
`src/app.go` — the `*` rule is normalized to `/*` and compiled to the
separator-free matcher `^[^/]*$` — so the pull request touching only
`src/app.go` is not attributed to `@team1`: aggregation leaves both the
`team1` and `@team1` counters at zero and counts the PR under
`no_codeowners`. -/
theorem star_rule_counterexample :
    findOwners scenarioFile (gs "src/app.go") = [] ∧
    (aggregateResults [] (gs "multi") [srcResult]).prsByTeam (gs "team1") = 0 ∧
    (aggregateResults [] (gs "multi") [srcResult]).prsByTeam (gs "@team1") = 0 ∧
    (aggregateResults [] (gs "multi") [srcResult]).prsByTeam (gs "no_codeowners") = 1 := by
  refine ⟨by decide, by decide, by decide, by decide⟩

/-- C2 (amended): the docs pull request is attributed to `@team2` (counted
under the normalized key `team2`), while the src pull request matches no
rule — `*` matches only separator-free paths — and is counted under the
`no_codeowners` sentinel instead of `@team1`. -/
theorem scenario_attribution :
    findOwners scenarioFile (gs "docs/readme.md") = [gs "@team2"] ∧
    (aggregateResults [] (gs "multi") [docsResult]).prsByTeam (gs "team2") = 1 ∧
    (aggregateResults [] (gs "multi") [docsResult]).prsByTeam (gs "team1") = 0 ∧
    (aggregateResults [] (gs "multi") [docsResult]).prsByTeam (gs "no_codeowners") = 0 ∧
    findOwners scenarioFile (gs "src/app.go") = [] ∧
    (aggregateResults [] (gs "multi") [srcResult]).prsByTeam (gs "no_codeowners") = 1 := by
  refine ⟨by decide, by decide, by decide, by decide, by decide, by decide⟩

/-- A rollup is detected exactly when the rollup-name lookup is
non-empty. -/
theorem isTeamInRollup_of_getRollupTeams (rollups : List TeamRollup)
    (team : GoStr) (h : getRollupTeams rollups team ≠ []) :
    isTeamInRollup rollups team = true := by
  induction rollups with
  | nil => simp [getRollupTeams] at h
  | cons ru rs ih =>
    by_cases hru : ru.teams.any (fun t => normalizeOwner t == normalizeOwner team) = true
    · simp [isTeamInRollup, hru]
    · have hg : getRollupTeams (ru :: rs) team = getRollupTeams rs team := by
        simp only [getRollupTeams, List.filterMap_cons]
        rw [if_neg hru]
      rw [hg] at h
      have := ih h
      simp [isTeamInRollup] at this ⊢
      exact Or.inr this

/-- `insertIfAbsent` is idempotent. -/
theorem insertIfAbsent_idem (l : List GoStr) (x : GoStr) :
    insertIfAbsent (insertIfAbsent l x) x = insertIfAbsent l x := by
  by_cases hx : x ∈ l
  · simp [insertIfAbsent, hx]
  · simp [insertIfAbsent, hx]

/-- The owner fold of `aggregatePRTeams` when every owner maps to exactly
the rollup `rname`: the rollup set accumulates just `rname` and the
non-rollup set is untouched. -/
theorem aggregateFold_single_rollup (rollups : List TeamRollup) (rname : GoStr) :
    ∀ (owners : List GoStr) (rs ns : List GoStr), owners ≠ [] →
    (∀ o ∈ owners, getRollupTeams rollups o = [rname]) →
    owners.foldl
      (fun (acc : List GoStr × List GoStr) o =>
        if isTeamInRollup rollups o then
          ((getRollupTeams rollups o).foldl insertIfAbsent acc.1, acc.2)
        else
          (acc.1, insertIfAbsent acc.2 (normalizeOwner o)))
      (rs, ns) = (insertIfAbsent rs rname, ns) := by
  intro owners
  induction owners with
  | nil => intro rs ns hne _; exact absurd rfl hne
  | cons o os ih =>
    intro rs ns _ hall
    have ho : getRollupTeams rollups o = [rname] := hall o (by simp)
    have hin : isTeamInRollup rollups o = true :=
      isTeamInRollup_of_getRollupTeams rollups o (by simp [ho])
    simp only [List.foldl_cons, hin, if_true, ho, List.foldl]
    cases os with
    | nil => simp
    | cons o2 os2 =>
      rw [ih (insertIfAbsent rs rname) ns (by simp)
        (fun x hx => hall x (List.mem_cons_of_mem o hx))]
      rw [insertIfAbsent_idem]

/-- C3: when the resolved owner set of a pull request is non-empty and
every owner maps to exactly the rollup named `rname`, the per-PR team
update of the aggregation bumps the `rname` counter by exactly one and
leaves every other counter — in particular every member team's normalized
name — unchanged; concretely, with rollup `platform = {@infra, @sre}` a
pull request resolving to `{@infra, @sre}` increments `platform` by 1 and
neither `infra`, `sre`, `@infra` nor `@sre`. -/
theorem rollup_counted_once :
    (∀ (rollups : List TeamRollup) (rname : GoStr) (owners : List GoStr)
        (c : GoStr → Nat),
      owners ≠ [] →
      (∀ o ∈ owners, getRollupTeams rollups o = [rname]) →
      aggregatePRTeams rollups owners = [rname] ∧
      bumpAll c (aggregatePRTeams rollups owners) rname = c rname + 1 ∧
      (∀ k, k ≠ rname → bumpAll c (aggregatePRTeams rollups owners) k = c k)) ∧
    ((aggregateResults [platformRollup] (gs "multi") [infraResult]).prsByTeam
        (gs "platform") = 1 ∧
      (aggregateResults [platformRollup] (gs "multi") [infraResult]).prsByTeam
        (gs "infra") = 0 ∧
      (aggregateResults [platformRollup] (gs "multi") [infraResult]).prsByTeam
        (gs "sre") = 0 ∧
      (aggregateResults [platformRollup] (gs "multi") [infraResult]).prsByTeam
        (gs "@infra") = 0 ∧
      (aggregateResults [platformRollup] (gs "multi") [infraResult]).prsByTeam
        (gs "@sre") = 0) := by
  constructor
  · intro rollups rname owners c hne hall
    have hkeys : aggregatePRTeams rollups owners = [rname] := by
      cases owners with
      | nil => exact absurd rfl hne
      | cons o os =>
        simp only [aggregatePRTeams]
        rw [aggregateFold_single_rollup rollups rname (o :: os) [] [] (by simp) hall]
        simp [insertIfAbsent]
    refine ⟨hkeys, ?_, ?_⟩
    · rw [hkeys]
      simp [bumpAll, bump]
    · intro k hk
      rw [hkeys]
      simp [bumpAll, bump, hk]
  · refine ⟨by decide, by decide, by decide, by decide, by decide⟩

/-- Witness for `rollup_counted_once`: the platform rollup with resolved
owners `{@infra, @sre}` produces exactly one bump of `platform`. -/
theorem rollup_counted_once_witness :
    aggregatePRTeams [platformRollup] [gs "@infra", gs "@sre"] = [gs "platform"] ∧
    bumpAll (fun _ => 0) (aggregatePRTeams [platformRollup] [gs "@infra", gs "@sre"])
      (gs "platform") = 0 + 1 :=
  have h := rollup_counted_once.1 [platformRollup] (gs "platform")
    [gs "@infra", gs "@sre"] (fun _ => 0) (by decide) (by decide)
  ⟨h.1, h.2.1⟩

/-- A filterMap over a boolean guard is the filtered list mapped. -/
theorem filterMap_guard_eq_filter_map {α β : Type} (p : α → Bool) (g : α → β) :
    ∀ l : List α,
      (l.filterMap fun a => if p a then some (g a) else none) =
        (l.filter p).map g := by
  intro l
  induction l with
  | nil => rfl
  | cons a t ih =>
    by_cases h : p a
    · simp [List.filterMap_cons, List.filter_cons, h, ih]
    · simp [List.filterMap_cons, List.filter_cons, h, ih]

/-- The slot value produced by the inner sorting pass is the strict-maximum
fold of the scanned elements. -/
theorem sortInner_fst : ∀ (xs : List OwnerMatch) (cur : OwnerMatch),
    (sortInner cur xs).1 = xs.foldl pickMoreSpecific cur := by
  intro xs
  induction xs with
  | nil => intro cur; rfl
  | cons x xs ih =>
    intro cur
    simp only [sortInner, List.foldl_cons, pickMoreSpecific]
    by_cases h : cur.specificity < x.specificity
    · simp only [if_pos h]
      exact ih x
    · simp only [if_neg h]
      exact ih cur

/-- The strict-maximum fold never decreases the seed's specificity. -/
theorem spec_le_foldl_pick : ∀ (xs : List OwnerMatch) (cur : OwnerMatch),
    cur.specificity ≤ (xs.foldl pickMoreSpecific cur).specificity := by
  intro xs
  induction xs with
  | nil => intro cur; simp
  | cons x xs ih =>
    intro cur
    simp only [List.foldl_cons, pickMoreSpecific]
    by_cases h : cur.specificity < x.specificity
    · simp only [if_pos h]
      exact le_trans (le_of_lt h) (ih x)
    · simp only [if_neg h]
      exact ih cur

/-- The strict-maximum fold picks the first element of maximal
specificity: the scanned list splits around the fold's result, everything
is bounded by it, and everything before it is strictly smaller. -/
theorem foldl_pick_first_max :
    ∀ (xs : List OwnerMatch) (cur : OwnerMatch),
      ∃ pre post,
        cur :: xs = pre ++ (xs.foldl pickMoreSpecific cur) :: post ∧
        (∀ y ∈ cur :: xs,
          y.specificity ≤ (xs.foldl pickMoreSpecific cur).specificity) ∧
        (∀ y ∈ pre,
          y.specificity < (xs.foldl pickMoreSpecific cur).specificity) := by
  intro xs
  induction xs with
  | nil =>
    intro cur
    exact ⟨[], [], by simp, by simp, by simp⟩
  | cons x xs ih =>
    intro cur
    by_cases h : cur.specificity < x.specificity
    · obtain ⟨pre, post, hdec, hbound, hpre⟩ := ih x
      have hfold : (x :: xs).foldl pickMoreSpecific cur =
          xs.foldl pickMoreSpecific x := by
        simp [List.foldl_cons, pickMoreSpecific, h]
      refine ⟨cur :: pre, post, ?_, ?_, ?_⟩
      · rw [hfold, List.cons_append, ← hdec]
      · intro y hy
        rw [hfold]
        rcases List.mem_cons.mp hy with hy0 | hy1
        · subst hy0
          exact le_trans (le_of_lt h) (spec_le_foldl_pick xs x)
        · exact hbound y hy1
      · intro y hy
        rw [hfold]
        rcases List.mem_cons.mp hy with hy0 | hy1
        · subst hy0
          exact lt_of_lt_of_le h (spec_le_foldl_pick xs x)
        · exact hpre y hy1
    · obtain ⟨pre, post, hdec, hbound, hpre⟩ := ih cur
      have hfold : (x :: xs).foldl pickMoreSpecific cur =
          xs.foldl pickMoreSpecific cur := by
        simp [List.foldl_cons, pickMoreSpecific, h]
      have hxle : x.specificity ≤ (xs.foldl pickMoreSpecific cur).specificity :=
        le_trans (le_of_not_lt h) (spec_le_foldl_pick xs cur)
      cases pre with
      | nil =>
        simp only [List.nil_append] at hdec
        have hcur : cur = xs.foldl pickMoreSpecific cur := (List.cons.injEq _ _ _ _ ▸ hdec).1
        have hpost : xs = post := (List.cons.injEq _ _ _ _ ▸ hdec).2
        refine ⟨[], x :: post, ?_, ?_, ?_⟩
        · rw [hfold, List.nil_append, ← hcur, ← hpost]
        · intro y hy
          rw [hfold]
          rcases List.mem_cons.mp hy with hy0 | hy1
          · rw [hy0]; exact spec_le_foldl_pick xs cur
          · rcases List.mem_cons.mp hy1 with hy2 | hy3
            · subst hy2; exact hxle
            · exact hbound y (List.mem_cons_of_mem cur hy3)
        · intro y hy; simp at hy
      | cons a pre1 =>
        simp only [List.cons_append] at hdec
        have ha : cur = a := (List.cons.injEq _ _ _ _ ▸ hdec).1
        have hxs : xs = pre1 ++ (xs.foldl pickMoreSpecific cur) :: post :=
          (List.cons.injEq _ _ _ _ ▸ hdec).2
        have hcurlt : cur.specificity < (xs.foldl pickMoreSpecific cur).specificity := by
          apply hpre
          rw [← ha]; exact List.mem_cons_self _ _
        refine ⟨cur :: x :: pre1, post, ?_, ?_, ?_⟩
        · rw [hfold]
          simp only [List.cons_append]
          rw [← hxs]
        · intro y hy
          rw [hfold]
          rcases List.mem_cons.mp hy with hy0 | hy1
          · subst hy0; exact le_of_lt hcurlt
          · rcases List.mem_cons.mp hy1 with hy2 | hy3
            · subst hy2; exact hxle
            · exact hbound y (List.mem_cons_of_mem cur hy3)
        · intro y hy
          rw [hfold]
          rcases List.mem_cons.mp hy with hy0 | hy1
          · subst hy0; exact hcurlt
          · rcases List.mem_cons.mp hy1 with hy2 | hy3
            · subst hy2
              exact lt_of_le_of_lt (le_of_not_lt h) hcurlt
            · exact hpre y (List.mem_cons_of_mem a hy3)

/-- A cons-split of a mapped list pulls back to a cons-split of the
original list. -/
theorem map_eq_append_cons {α β : Type} (f : α → β) :
    ∀ (l : List α) (pre : List β) (y : β) (post : List β),
      l.map f = pre ++ y :: post →
      ∃ p r q, l = p ++ r :: q ∧ p.map f = pre ∧ f r = y ∧ q.map f = post := by
  intro l
  induction l with
  | nil =>
    intro pre y post h
    simp only [List.map_nil] at h
    exact absurd h.symm (List.append_ne_nil_of_right_ne_nil pre (by simp))
  | cons a t ih =>
    intro pre y post h
    cases pre with
    | nil =>
      simp only [List.map_cons, List.nil_append, List.cons.injEq] at h
      exact ⟨[], a, t, by simp, by simp, h.1, h.2⟩
    | cons b pre1 =>
      simp only [List.map_cons, List.cons_append, List.cons.injEq] at h
      obtain ⟨p, r, q, hl, hp, hr, hq⟩ := ih pre1 y post h.2
      exact ⟨a :: p, r, q, by simp [hl], by simp [hp, h.1], hr, hq⟩

/-- C1: `FindOwners` returns exactly the owners of the single most-specific
matching rule: the matching rules split around a rule `r` whose owners are
returned, every matching rule's (normalized) pattern is at most as long as
`r`'s, and every matching rule declared before `r` has a strictly shorter
pattern — so the longest pattern wins and ties go to the earliest-declared
rule; when no rule matches the result is empty. -/
theorem findOwners_most_specific (file : CODEOWNERSFile) (filePath : GoStr) :
    (matchingRules file filePath = [] → findOwners file filePath = []) ∧
    (matchingRules file filePath ≠ [] →
      ∃ pre r post,
        matchingRules file filePath = pre ++ r :: post ∧
        findOwners file filePath = r.owners ∧
        (∀ s ∈ matchingRules file filePath,
          s.pattern.length ≤ r.pattern.length) ∧
        (∀ s ∈ pre, s.pattern.length < r.pattern.length)) := by
  have hms : (file.rules.filterMap fun r =>
      if matchesPattern r.pattern (normalizePath filePath) then
        some (⟨r.owners, r.pattern.length⟩ : OwnerMatch)
      else none) = (matchingRules file filePath).map toMatch := by
    rw [matchingRules]
    exact filterMap_guard_eq_filter_map _ _ _
  constructor
  · intro hempty
    by_cases hrules : file.rules.isEmpty
    · simp [findOwners, hrules]
    · simp only [findOwners, hrules, Bool.false_eq_true, if_false, ite_false]
      rw [hms, hempty]
      rfl
  · intro hne
    have hrules : file.rules.isEmpty = false := by
      cases hr : file.rules with
      | nil =>
        exfalso
        apply hne
        simp [matchingRules, hr]
      | cons a t => simp [hr]
    obtain ⟨m0, M1, hM⟩ : ∃ m0 M1, matchingRules file filePath = m0 :: M1 := by
      cases hmr : matchingRules file filePath with
      | nil => exact absurd hmr hne
      | cons m0 M1 => exact ⟨m0, M1, rfl⟩
    have hfind : findOwners file filePath =
        ((M1.map toMatch).foldl pickMoreSpecific (toMatch m0)).owners := by
      simp only [findOwners, hrules, Bool.false_eq_true, if_false, ite_false]
      rw [hms, hM]
      simp only [List.map_cons, sortMatches, List.length_cons, sortMatchesAux,
        sortInner_fst]
    obtain ⟨preM, postM, hdecM, hboundM, hpreM⟩ :=
      foldl_pick_first_max (M1.map toMatch) (toMatch m0)
    have hmapM : (matchingRules file filePath).map toMatch =
        preM ++ ((M1.map toMatch).foldl pickMoreSpecific (toMatch m0)) :: postM := by
      rw [hM, List.map_cons]
      exact hdecM
    obtain ⟨p, r, q, hl, hp, hr, hq⟩ :=
      map_eq_append_cons toMatch (matchingRules file filePath) preM _ postM hmapM
    refine ⟨p, r, q, hl, ?_, ?_, ?_⟩
    · rw [hfind, ← hr]
      rfl
    · intro s hs
      have hsm : toMatch s ∈ (toMatch m0) :: M1.map toMatch := by
        rw [← List.map_cons, ← hM]
        exact List.mem_map_of_mem toMatch hs
      have := hboundM (toMatch s) hsm
      rw [← hr] at this
      exact this
    · intro s hs
      have hsm : toMatch s ∈ preM := by
        rw [← hp]
        exact List.mem_map_of_mem toMatch hs
      have := hpreM (toMatch s) hsm
      rw [← hr] at this
      exact this

/-- Witness for `findOwners_most_specific`: the scenario file has a
non-empty matching-rule set for `docs/readme.md`, and the split it asserts
exists. -/
theorem findOwners_most_specific_witness :
    matchingRules scenarioFile (gs "docs/readme.md") ≠ [] ∧
    ∃ pre r post,
      matchingRules scenarioFile (gs "docs/readme.md") = pre ++ r :: post ∧
      findOwners scenarioFile (gs "docs/readme.md") = r.owners ∧
      (∀ s ∈ matchingRules scenarioFile (gs "docs/readme.md"),
        s.pattern.length ≤ r.pattern.length) ∧
      (∀ s ∈ pre, s.pattern.length < r.pattern.length) :=
  ⟨by decide,
    (findOwners_most_specific scenarioFile (gs "docs/readme.md")).2 (by decide)⟩
